import Mathlib

/-!
Shallow embedding of the stevedore plugin-manager library
(`stevedore/extension.py`, `stevedore/named.py`, `stevedore/driver.py`,
`stevedore/hook.py`, `stevedore/_cache.py`) together with theorems that
settle the specification claims about it.

Python exceptions are modelled by the inductive `Exc`; code that can raise
returns `Except Exc _`.  Python values (plugins, instantiated objects,
results of caller-supplied functions) are modelled by `PyVal`, which carries
Python's truthiness.  Caller-supplied callbacks (conflict resolver, load
functions, map functions) are modelled as explicit function parameters, and
their invocations are tracked in returned logs where a claim talks about
how often and with which arguments a callback is invoked.
-/

namespace Stevedore

/-- Model of the Python exception classes that matter to the library.
`keyboardInterrupt` models `KeyboardInterrupt` (a `BaseException` that is
*not* an `Exception`); all other constructors model `Exception` subclasses. -/
inductive Exc where
  | keyboardInterrupt
  | assertionError
  | noMatches (msg : String)
  | multipleMatches (msg : String)
  | keyError (key : String)
  | valueError (msg : String)
  | other (tag : Nat)
deriving DecidableEq, Repr

/-- `except Exception` catches everything except `KeyboardInterrupt`
(`KeyboardInterrupt` derives from `BaseException` only). -/
def Exc.isException : Exc → Bool
  | .keyboardInterrupt => false
  | _ => true

/-- A small model of Python values, enough to carry Python truthiness:
`none`, booleans, integers, strings and opaque objects (always truthy). -/
inductive PyVal where
  | none
  | bool (b : Bool)
  | int (n : Int)
  | str (s : String)
  | obj (id : Nat)
deriving DecidableEq, Repr

/-- Python truthiness of a `PyVal` (`bool(v)`). -/
def PyVal.truthy : PyVal → Bool
  | .none => false
  | .bool b => b
  | .int n => decide (n ≠ 0)
  | .str s => decide (s ≠ "")
  | .obj _ => true

/-- `importlib.metadata.EntryPoint`: a registration record
`(name, value-locator, group/namespace)`. -/
structure EntryPoint where
  name : String
  value : String
  group : String
deriving DecidableEq, Repr

/-- `stevedore.extension.Extension`: name, entry point, resolved plugin and
the object built on load (`obj` is Python `None` when `invoke_on_load` was
not requested). -/
structure Extension where
  name : String
  entryPoint : EntryPoint
  plugin : PyVal
  obj : PyVal
deriving DecidableEq, Repr

namespace ExtensionManager

/-- `ExtensionManager._load_one_plugin`: resolve the entry point
(`ep.load()`), instantiate it when `invoke_on_load` is set, and wrap the
result in an `Extension` named after the entry point.  `resolve` models the
dynamic-import capability and `instantiate` models `plugin(*args, **kwds)`. -/
def loadOnePlugin (resolve : EntryPoint → Except Exc PyVal)
    (instantiate : PyVal → Except Exc PyVal) (invokeOnLoad : Bool)
    (ep : EntryPoint) : Except Exc (Option Extension) :=
  match resolve ep with
  | .error e => .error e
  | .ok plugin =>
    match (if invokeOnLoad then instantiate plugin else .ok PyVal.none) with
    | .error e => .error e
    | .ok obj => .ok (some ⟨ep.name, ep, plugin, obj⟩)

/-- `ExtensionManager._load_plugins`: try `loadOne` on every entry point in
order, keep the successes, re-raise `KeyboardInterrupt` and
`AssertionError` unconditionally, and hand every other exception to the
`on_load_failure_callback` when one is configured (the callback may itself
raise, as `DriverManager`'s default does), else log and continue. -/
def loadPlugins (loadOne : EntryPoint → Except Exc (Option Extension))
    (cb : Option (EntryPoint → Exc → Except Exc Unit)) :
    List EntryPoint → Except Exc (List Extension)
  | [] => .ok []
  | ep :: rest =>
    match loadOne ep with
    | .ok (some ext) =>
      match loadPlugins loadOne cb rest with
      | .ok exts => .ok (ext :: exts)
      | .error e => .error e
    | .ok none => loadPlugins loadOne cb rest
    | .error err =>
      if err = .keyboardInterrupt ∨ err = .assertionError then .error err
      else
        match cb with
        | some f =>
          match f ep err with
          | .ok _ => loadPlugins loadOne cb rest
          | .error e₂ => .error e₂
        | none => loadPlugins loadOne cb rest

/-- `ExtensionManager._invoke_one_plugin`: call `func(e)` and append the
result to the response; a raised `Exception` is re-raised when
`propagate_map_exceptions` is set and logged-and-swallowed otherwise;
anything that is not an `Exception` (i.e. `KeyboardInterrupt`) always
propagates. -/
def invokeOnePlugin (propagate : Bool) (func : Extension → Except Exc PyVal)
    (e : Extension) (response : List PyVal) : Except Exc (List PyVal) :=
  match func e with
  | .ok v => .ok (response ++ [v])
  | .error err =>
    if err.isException ∧ ¬propagate then .ok response else .error err

/-- The loop body of `ExtensionManager.map`, additionally returning the
list of extensions on which `func` was actually invoked (in order) so that
claims about "which extensions were invoked" can be stated.  The result
triple is (collected results, invoked extensions, raised exception if any). -/
def mapGo (propagate : Bool) (func : Extension → Except Exc PyVal) :
    List Extension → List PyVal × List Extension × Option Exc
  | [] => ([], [], none)
  | e :: rest =>
    match func e with
    | .ok v =>
      let r := mapGo propagate func rest
      (v :: r.1, e :: r.2.1, r.2.2)
    | .error err =>
      if err.isException ∧ ¬propagate then
        let r := mapGo propagate func rest
        (r.1, e :: r.2.1, r.2.2)
      else ([], [e], some err)

/-- `ExtensionManager.map`: raise `NoMatches` on an empty collection,
otherwise run `_invoke_one_plugin` over the collection in order and return
the collected results (re-raising per `mapGo`). -/
def map (propagate : Bool) (ns : String) (exts : List Extension)
    (func : Extension → Except Exc PyVal) : Except Exc (List PyVal) :=
  if exts = [] then .error (.noMatches ("No " ++ ns ++ " extensions found"))
  else
    match mapGo propagate func exts with
    | (vs, _, Option.none) => .ok vs
    | (_, _, some err) => .error err

/-- The extensions on which `func` is invoked by `map` (empty collection:
`map` raises before invoking `func` at all). -/
def mapTrace (propagate : Bool) (exts : List Extension)
    (func : Extension → Except Exc PyVal) : List Extension :=
  (mapGo propagate func exts).2.1

/-- `itertools.groupby(self.extensions, lambda x: x.name)`: split a list
into maximal runs of adjacent elements sharing a name.  Each run is
represented as (first element, remaining elements of the run), so runs are
non-empty by construction. -/
def groupByRuns : List Extension → List (Extension × List Extension)
  | [] => []
  | e :: rest =>
    match groupByRuns rest with
    | [] => [(e, [])]
    | (f, g) :: gs =>
      if e.name = f.name then (e, f :: g) :: gs
      else (e, []) :: (f, g) :: gs

/-- Lookup in an insertion-ordered dictionary (`d[name]`). -/
def dictGet (d : List (String × Extension)) (k : String) : Option Extension :=
  (d.find? (fun p => p.1 = k)).map (fun p => p.2)

/-- `d[name] = ext` with Python-dict semantics: an existing key keeps its
position and gets the new value, a fresh key is appended. -/
def dictInsert (d : List (String × Extension)) (k : String) (v : Extension) :
    List (String × Extension) :=
  if d.any (fun p => p.1 = k) then
    d.map (fun p => if p.1 = k then (k, v) else p)
  else d ++ [(k, v)]

/-- The per-group body of `_extensions_by_name`: for a group with more than
one member call the conflict resolver with `(namespace, name, members)`,
otherwise take the group's only member. -/
def chooseRun (resolver : String → String → List Extension → Except Exc Extension)
    (ns : String) (p : Extension × List Extension) : Except Exc Extension :=
  match p.2 with
  | [] => .ok p.1
  | _ => resolver ns p.1.name (p.1 :: p.2)

/-- One resolver invocation: (namespace, name, group members in order). -/
abbrev ResolverCall : Type := String × String × List Extension

/-- The conflict-resolver invocation a run gives rise to: none for a
singleton run, one call with all members in order for a longer run. -/
def runCall (ns : String) (p : Extension × List Extension) :
    List ResolverCall :=
  match p.2 with
  | [] => []
  | _ => [(ns, p.1.name, p.1 :: p.2)]

/-- Loop of `ExtensionManager._extensions_by_name` over the `groupby`
groups, building the name dictionary and recording every conflict-resolver
invocation with its arguments. -/
def byNameGo (resolver : String → String → List Extension → Except Exc Extension)
    (ns : String) :
    List (Extension × List Extension) → List (String × Extension) →
    List ResolverCall →
    Except Exc (List (String × Extension) × List ResolverCall)
  | [], d, log => .ok (d, log)
  | p :: gs, d, log =>
    match chooseRun resolver ns p with
    | .ok ext =>
      byNameGo resolver ns gs (dictInsert d p.1.name ext)
        (log ++ runCall ns p)
    | .error e => .error e

/-- `ExtensionManager._extensions_by_name`: group the ordered collection by
name with `itertools.groupby` (which only merges *adjacent* equal names),
resolve every group of more than one member through the conflict resolver,
and map each name to the chosen extension.  Also returns the list of
resolver invocations. -/
def extensionsByName
    (resolver : String → String → List Extension → Except Exc Extension)
    (ns : String) (exts : List Extension) :
    Except Exc (List (String × Extension) × List ResolverCall) :=
  byNameGo resolver ns (groupByRuns exts) [] []

/-- `stevedore.extension.ignore_conflicts`: warn and pick the last
extension of the group. -/
def ignoreConflicts (ns : String) (nm : String) (g : List Extension) :
    Except Exc Extension :=
  match g.getLast? with
  | some e => .ok e
  | Option.none => .error (.other 0)

/-- `stevedore.extension.error_on_conflict`: raise `MultipleMatches`. -/
def errorOnConflict (ns : String) (nm : String) (g : List Extension) :
    Except Exc Extension :=
  .error (.multipleMatches
    ("multiple implementations found for the '" ++ nm ++ "' command in " ++
      ns ++ " namespace"))

end ExtensionManager

namespace NamedExtensionManager

/-- `NamedExtensionManager._load_one_plugin`: reject an entry point whose
name is not in the wanted list *before* resolving it, else defer to the
base loader. -/
def loadOnePlugin (names : List String)
    (resolve : EntryPoint → Except Exc PyVal)
    (instantiate : PyVal → Except Exc PyVal) (invokeOnLoad : Bool)
    (ep : EntryPoint) : Except Exc (Option Extension) :=
  if ep.name ∉ names then .ok Option.none
  else ExtensionManager.loadOnePlugin resolve instantiate invokeOnLoad ep

/-- `set(self._names) - {e.name for e in extensions}`. -/
def missingNames (names : List String) (exts : List Extension) :
    Finset String :=
  names.toFinset \ (exts.map (fun e => e.name)).toFinset

/-- `NamedExtensionManager._load_plugins`: run the base loader, compute the
missing-names set and, when it is non-empty and a missing-names callback is
configured, invoke the callback once with exactly that set.  Callback
invocations are returned as a list of argument sets. -/
def loadPlugins (names : List String)
    (loadOne : EntryPoint → Except Exc (Option Extension))
    (cb : Option (EntryPoint → Exc → Except Exc Unit))
    (missingCb : Bool) (eps : List EntryPoint) :
    Except Exc (List Extension × List (Finset String)) :=
  match ExtensionManager.loadPlugins loadOne cb eps with
  | .ok exts =>
    let missing := missingNames names exts
    if missing ≠ ∅ ∧ missingCb then .ok (exts, [missing])
    else .ok (exts, [])
  | .error e => .error e

/-- The list comprehension `[self[n] for n in ns']`: look every name up in
the conflict-resolved index `d`, raising `KeyError` for an absent name. -/
def lookupEach (d : List (String × Extension)) :
    List String → Except Exc (List Extension)
  | [] => .ok []
  | n :: rest =>
    match ExtensionManager.dictGet d n with
    | some e =>
      match lookupEach d rest with
      | .ok l => .ok (e :: l)
      | .error err => .error err
    | Option.none => .error (.keyError n)

/-- `NamedExtensionManager._init_plugins`: with `name_order` set, replace
the collection by `[self[n] for n in self._names if n not in
self._missing_names]`, where `self[n]` is the conflict-resolved name index
lookup (raising `KeyError` when absent); otherwise keep the loaded list. -/
def initPlugins (nameOrder : Bool) (names : List String)
    (resolver : String → String → List Extension → Except Exc Extension)
    (ns : String) (exts : List Extension) : Except Exc (List Extension) :=
  if nameOrder then
    match ExtensionManager.extensionsByName resolver ns exts with
    | .ok (d, _) =>
      lookupEach d (names.filter (fun n => n ∉ missingNames names exts))
    | .error e => .error e
  else .ok exts

end NamedExtensionManager

namespace DriverManager

/-- `DriverManager._default_on_load_failure`: a bare `raise`, re-raising
the load error. -/
def defaultOnLoadFailure (ep : EntryPoint) (err : Exc) : Except Exc Unit :=
  .error err

/-- `DriverManager._init_plugins`: after the named initialisation, raise
`NoMatches` when no extension survived and `MultipleMatches` when more than
one did. -/
def initPlugins (ns : String) (names : List String)
    (exts : List Extension) : Except Exc (List Extension) :=
  if exts = [] then
    .error (.noMatches
      ("No '" ++ ns ++ "' driver found, looking for '" ++
        (names.headD "") ++ "'"))
  else if 1 < exts.length then
    .error (.multipleMatches
      ("Multiple '" ++ ns ++ "' drivers found: " ++
        String.intercalate "," (exts.map (fun e => e.entryPoint.value))))
  else .ok exts

/-- `DriverManager.__init__` load pipeline for namespace `ns` and single
wanted name `nm`: the named loader restricted to `[nm]`, with the default
on-load-failure callback (which re-raises), followed by the driver
`_init_plugins` check. -/
def construct (ns nm : String) (invokeOnLoad : Bool)
    (resolve : EntryPoint → Except Exc PyVal)
    (instantiate : PyVal → Except Exc PyVal) (eps : List EntryPoint) :
    Except Exc (List Extension) :=
  match NamedExtensionManager.loadPlugins [nm]
      (NamedExtensionManager.loadOnePlugin [nm] resolve instantiate
        invokeOnLoad)
      (some defaultOnLoadFailure) true eps with
  | .ok (exts, _) =>
    match NamedExtensionManager.initPlugins false [nm]
        ExtensionManager.ignoreConflicts ns exts with
    | .ok exts' => initPlugins ns [nm] exts'
    | .error e => .error e
  | .error e => .error e

/-- `DriverManager.driver`: `ext.obj if ext.obj else ext.plugin` on the
single extension — note the Python *truthiness* test on `obj`. -/
def driver (exts : List Extension) : PyVal :=
  match exts with
  | ext :: _ => if ext.obj.truthy then ext.obj else ext.plugin
  | [] => PyVal.none

end DriverManager

namespace HookManager

/-- `HookManager.__getitem__`: indexing by the manager's single wanted name
(`self._names[0]`) yields the whole extension list; any other name raises
`KeyError`. -/
def getItem (names : List String) (exts : List Extension) (name : String) :
    Except Exc (List Extension) :=
  if name ≠ names.headD "" then .error (.keyError name)
  else .ok exts

/-- `HookManager.__init__` load pipeline: the named loader restricted to
`[nm]`, with no on-load-failure callback and no missing-names callback
(the hook default), followed by the (plain) named `_init_plugins` with
`name_order` left `False`. -/
def construct (ns nm : String) (invokeOnLoad : Bool)
    (resolve : EntryPoint → Except Exc PyVal)
    (instantiate : PyVal → Except Exc PyVal) (eps : List EntryPoint) :
    Except Exc (List Extension) :=
  match NamedExtensionManager.loadPlugins [nm]
      (NamedExtensionManager.loadOnePlugin [nm] resolve instantiate
        invokeOnLoad)
      Option.none false eps with
  | .ok (exts, _) =>
    NamedExtensionManager.initPlugins false [nm]
      ExtensionManager.ignoreConflicts ns exts
  | .error e => .error e

end HookManager

namespace Cache

/-- A persisted cache dataset (`_CacheEntry`): the `groups` mapping from
namespace to `(name, locator, namespace)` triples, the interpreter
identity, and the path/mtime list recorded at build time (mtimes modelled
as integers; their values are never computed with). -/
structure CacheEntry where
  groups : List (String × List (String × String × String))
  executable : String
  prefixPath : String
  pathValues : List (String × Int)
deriving DecidableEq, Repr

/-- The `_disable_caching` computation in `Cache.__init__`: true when the
`.disable` sentinel file exists in the cache directory or
`sys.executable[0:4] == '/tmp'`. -/
def mkDisableCaching (disableFilePresent : Bool) (executable : String) :
    Bool :=
  disableFilePresent || executable.take 4 = "/tmp"

/-- The mutable state of a `Cache` object: its directory, the in-process
memoization map `_internal` keyed by the search-path tuple, and the
`_disable_caching` flag. -/
structure CacheState where
  dir : String
  internal : List (List String × CacheEntry)
  disableCaching : Bool
deriving Repr

/-- Lookup in the `_internal` memoization map. -/
def internalGet (m : List (List String × CacheEntry)) (k : List String) :
    Option CacheEntry :=
  (m.find? (fun p => p.1 = k)).map (fun p => p.2)

/-- `Cache._get_data_for_path`: consult `_internal` first; on miss compute
the digest filename and try to read-and-parse the durable cache file; on
read failure rebuild (`_build_cacheable_data`, modelled by `build`) with
the hashed `path_values`, writing the durable file only when caching is not
disabled.  `fsRead` models a successful `open`+`json.load` (`Option.none`
is any `OSError`/decode error), `hashSettings` models
`_hash_settings_for_path`.  Returns the data, the updated state, and the
list of durable files written. -/
def getDataForPath (fsRead : String → Option CacheEntry)
    (build : CacheEntry)
    (hashSettings : List String → String × List (String × Int))
    (st : CacheState) (key : List String) :
    CacheEntry × CacheState × List String :=
  match internalGet st.internal key with
  | some data => (data, st, [])
  | Option.none =>
    let dg := hashSettings key
    let filename := st.dir ++ "/" ++ dg.1
    match fsRead filename with
    | some data =>
      (data, { st with internal := st.internal ++ [(key, data)] }, [])
    | Option.none =>
      let data := { build with pathValues := dg.2 }
      let writes := if st.disableCaching then [] else [filename]
      (data, { st with internal := st.internal ++ [(key, data)] }, writes)

/-- `data.get('groups', {}).get(group, [])`. -/
def groupsGet (e : CacheEntry) (group : String) :
    List (String × String × String) :=
  ((e.groups.find? (fun p => p.1 = group)).map (fun p => p.2)).getD []

/-- `Cache.get_group_all` applied to an already-obtained dataset: turn the
group's triples into entry points. -/
def get_group_all (e : CacheEntry) (group : String) : List EntryPoint :=
  (groupsGet e group).map (fun v => ⟨v.1, v.2.1, v.2.2⟩)

/-- The loop of `Cache.get_group_named`: keep the first entry point for
each name, in insertion order. -/
def namedGo : List EntryPoint → List (String × EntryPoint) →
    List (String × EntryPoint)
  | [], acc => acc
  | ep :: rest, acc =>
    if acc.any (fun p => p.1 = ep.name) then namedGo rest acc
    else namedGo rest (acc ++ [(ep.name, ep)])

/-- `Cache.get_group_named`: name-deduplicated (first wins) ordered mapping
of the group's entry points. -/
def get_group_named (e : CacheEntry) (group : String) :
    List (String × EntryPoint) :=
  namedGo (get_group_all e group) []

/-- The loop of `Cache.get_single`.  The source iterates
`for name, ep in self.get_group_named(...).items(): if name == name:
return ep` — the loop variable `name` shadows the parameter, so the
comparison is the loop variable against itself (`n = n` here). -/
def singleGo (group nm : String) :
    List (String × EntryPoint) → Except Exc EntryPoint
  | [] =>
    .error (.valueError
      ("No entrypoint '" ++ group ++ "' in group '" ++ nm ++ "'"))
  | (n, ep) :: rest => if n = n then .ok ep else singleGo group nm rest

/-- `Cache.get_single` applied to an already-obtained dataset. -/
def get_single (e : CacheEntry) (group : String) (nm : String) :
    Except Exc EntryPoint :=
  singleGo group nm (get_group_named e group)

end Cache

/-! ## General lemmas about the map pipeline -/

/-- `mapGo` with a never-raising function collects one result per
extension, in order, invoking the function on every extension. -/
theorem mapGo_total (p : Bool) (fv : Extension → PyVal) :
    ∀ exts : List Extension,
      ExtensionManager.mapGo p (fun e => .ok (fv e)) exts =
        (exts.map fv, exts, Option.none)
  | [] => rfl
  | e :: rest => by
    simp [ExtensionManager.mapGo, mapGo_total p fv rest]

/-- Under the continue policy, if every error the function raises is an
`Exception`, `mapGo` invokes the function on every extension and collects
exactly the successful results, in order. -/
theorem mapGo_continue (func : Extension → Except Exc PyVal) :
    ∀ exts : List Extension,
      (∀ e ∈ exts, ∀ err, func e = .error err → err.isException) →
      ExtensionManager.mapGo false func exts =
        (exts.filterMap (fun e => (func e).toOption), exts, Option.none)
  | [], _ => rfl
  | e :: rest, h => by
    have hrest := mapGo_continue func rest
      (fun x hx err he => h x (List.mem_cons_of_mem _ hx) err he)
    cases hfe : func e with
    | ok v => simp [ExtensionManager.mapGo, hfe, hrest, Except.toOption]
    | error err =>
      have hex : err.isException := h e (List.mem_cons_self _ _) err hfe
      simp [ExtensionManager.mapGo, hfe, hrest, hex, Except.toOption]

/-- If `mapGo` finished without a pending exception, then no invoked
extension raised `KeyboardInterrupt` (which is never caught). -/
theorem mapGo_ok_no_interrupt (p : Bool) (func : Extension → Except Exc PyVal) :
    ∀ exts : List Extension,
      (ExtensionManager.mapGo p func exts).2.2 = Option.none →
      ∀ e ∈ exts, func e ≠ .error .keyboardInterrupt
  | [], _, e, he => absurd he (List.not_mem_nil e)
  | e :: rest, h, x, hx => by
    cases hfe : func e with
    | ok v =>
      simp only [ExtensionManager.mapGo, hfe] at h
      rcases List.mem_cons.mp hx with rfl | hx'
      · simp [hfe]
      · exact mapGo_ok_no_interrupt p func rest h x hx'
    | error err =>
      simp only [ExtensionManager.mapGo, hfe] at h
      split at h
      · next hc =>
        rcases List.mem_cons.mp hx with rfl | hx'
        · intro hcontra
          rw [hfe] at hcontra
          cases hcontra
          exact absurd hc.1 (by simp [Exc.isException])
        · exact mapGo_ok_no_interrupt p func rest h x hx'
      · simp at h

/-- If every load attempt that returns an extension yields one satisfying
`P`, then every extension collected by `_load_plugins` satisfies `P`. -/
theorem loadPlugins_all (P : Extension → Prop)
    (loadOne : EntryPoint → Except Exc (Option Extension))
    (cb : Option (EntryPoint → Exc → Except Exc Unit))
    (hP : ∀ ep ext, loadOne ep = .ok (some ext) → P ext) :
    ∀ eps exts, ExtensionManager.loadPlugins loadOne cb eps = .ok exts →
      ∀ e ∈ exts, P e
  | [], exts, h, e, he => by
    simp only [ExtensionManager.loadPlugins] at h
    cases h
    exact absurd he (List.not_mem_nil e)
  | ep :: rest, exts, h, e, he => by
    cases hl : loadOne ep with
    | ok oext =>
      cases oext with
      | some ext =>
        simp only [ExtensionManager.loadPlugins, hl] at h
        cases hrest : ExtensionManager.loadPlugins loadOne cb rest with
        | ok exts' =>
          simp only [hrest] at h
          cases h
          rcases List.mem_cons.mp he with rfl | he'
          · exact hP ep e hl
          · exact loadPlugins_all P loadOne cb hP rest exts' hrest e he'
        | error e' => simp only [hrest] at h; cases h
      | none =>
        simp only [ExtensionManager.loadPlugins, hl] at h
        exact loadPlugins_all P loadOne cb hP rest exts h e he
    | error err =>
      simp only [ExtensionManager.loadPlugins, hl] at h
      split at h
      · simp at h
      · cases cb with
        | some f =>
          cases hf : f ep err with
          | ok u =>
            simp only [hf] at h
            exact loadPlugins_all P loadOne (some f) hP rest exts h e he
          | error e₂ => simp only [hf] at h; cases h
        | none => exact loadPlugins_all P loadOne Option.none hP rest exts h e he

/-- Under the propagate policy, the first raising extension aborts the
walk: everything before it was invoked successfully, it was invoked, and
the error is left pending. -/
theorem mapGo_propagate_abort (func : Extension → Except Exc PyVal) (err : Exc) :
    ∀ (pre : List Extension) (e : Extension) (post : List Extension),
      (∀ x ∈ pre, ∃ v, func x = .ok v) → func e = .error err →
      (ExtensionManager.mapGo true func (pre ++ e :: post)).2 =
        (pre ++ [e], some err)
  | [], e, post, _, he => by
    simp [ExtensionManager.mapGo, he]
  | x :: pre', e, post, hpre, he => by
    obtain ⟨v, hv⟩ := hpre x (List.mem_cons_self _ _)
    have ih := mapGo_propagate_abort func err pre' e post
      (fun y hy => hpre y (List.mem_cons_of_mem _ hy)) he
    have h1 : (ExtensionManager.mapGo true func (pre' ++ e :: post)).2.1 =
        pre' ++ [e] := by rw [ih]
    have h2 : (ExtensionManager.mapGo true func (pre' ++ e :: post)).2.2 =
        some err := by rw [ih]
    simp [ExtensionManager.mapGo, hv, h1, h2]

/-! ## Claim C5 -/

/-- C5: `map` on an empty collection raises `NoMatches` without invoking
the supplied function at all; on a non-empty collection with a
never-raising function it returns the list of the function's results, one
per extension, in collection order (and invokes the function on every
extension in that order). -/
theorem c5_map_noMatches_empty_and_results_in_order (p : Bool) (ns : String)
    (func : Extension → Except Exc PyVal) (exts : List Extension)
    (fv : Extension → PyVal) (hne : exts ≠ []) :
    (ExtensionManager.map p ns [] func =
        .error (.noMatches ("No " ++ ns ++ " extensions found")) ∧
      ExtensionManager.mapTrace p [] func = []) ∧
    (ExtensionManager.map p ns exts (fun e => .ok (fv e)) =
        .ok (exts.map fv) ∧
      ExtensionManager.mapTrace p exts (fun e => .ok (fv e)) = exts) := by
  refine ⟨⟨rfl, rfl⟩, ?_, ?_⟩
  · simp [ExtensionManager.map, hne, mapGo_total]
  · simp [ExtensionManager.mapTrace, mapGo_total]

/-- Witness for C5 at a one-extension manager and a constant function. -/
theorem c5_witness :
    ExtensionManager.map false "ns"
      [⟨"a", ⟨"a", "m:C", "ns"⟩, PyVal.obj 1, PyVal.none⟩]
      (fun _ => .ok (PyVal.obj 3)) = .ok [PyVal.obj 3] :=
  ((c5_map_noMatches_empty_and_results_in_order false "ns"
    (fun _ => .ok PyVal.none)
    [⟨"a", ⟨"a", "m:C", "ns"⟩, PyVal.obj 1, PyVal.none⟩]
    (fun _ => PyVal.obj 3) (by decide)).2).1

/-! ## Claim C4 -/

/-- Continue-policy `map` over a non-empty collection whose errors are all
`Exception`-class returns the successful results and invokes the function
on every extension. -/
theorem map_continue_filterMap (ns : String)
    (func : Extension → Except Exc PyVal) (exts : List Extension)
    (hne : exts ≠ [])
    (hex : ∀ e ∈ exts, ∀ err, func e = .error err → err.isException) :
    ExtensionManager.map false ns exts func =
      .ok (exts.filterMap (fun e => (func e).toOption)) ∧
    ExtensionManager.mapTrace false exts func = exts := by
  have hgo := mapGo_continue func exts hex
  constructor
  · rw [ExtensionManager.map, if_neg hne, hgo]
  · rw [ExtensionManager.mapTrace, hgo]

/-- C4: under the propagate policy the first error raised by the
caller-supplied function is re-raised from `map` and the function is
invoked on no extension after the raising one; under the continue policy a
raising extension contributes nothing to the result list while every
remaining extension is still invoked (errors here are `Exception`-class,
the only kind isolated by the policy — interrupts are covered by C2), so a
function raising for every extension yields an empty result list with a
normal return. -/
theorem c4_map_error_policies (ns : String)
    (func : Extension → Except Exc PyVal) :
    (∀ pre e post err, (∀ x ∈ pre, ∃ v, func x = .ok v) →
      func e = .error err →
      ExtensionManager.map true ns (pre ++ e :: post) func = .error err ∧
      ExtensionManager.mapTrace true (pre ++ e :: post) func = pre ++ [e]) ∧
    (∀ exts, exts ≠ [] →
      (∀ e ∈ exts, ∀ err, func e = .error err → err.isException) →
      ExtensionManager.map false ns exts func =
        .ok (exts.filterMap (fun e => (func e).toOption)) ∧
      ExtensionManager.mapTrace false exts func = exts) ∧
    (∀ exts, exts ≠ [] →
      (∀ e ∈ exts, ∃ err, func e = .error err ∧ err.isException) →
      ExtensionManager.map false ns exts func = .ok []) := by
  refine ⟨?_, ?_, ?_⟩
  · intro pre e post err hpre he
    have habort := mapGo_propagate_abort func err pre e post hpre he
    have h2 : (ExtensionManager.mapGo true func (pre ++ e :: post)).2.2 =
        some err := by rw [habort]
    have h1 : (ExtensionManager.mapGo true func (pre ++ e :: post)).2.1 =
        pre ++ [e] := by rw [habort]
    constructor
    · rw [ExtensionManager.map]
      rw [if_neg (by simp)]
      rcases hg : ExtensionManager.mapGo true func (pre ++ e :: post)
        with ⟨vs, tr, oe⟩
      rw [hg] at h2
      simp only at h2
      rw [h2]
    · rw [ExtensionManager.mapTrace, h1]
  · intro exts hne hex
    exact map_continue_filterMap ns func exts hne hex
  · intro exts hne hall
    have hex : ∀ e ∈ exts, ∀ err, func e = .error err → err.isException := by
      intro e he err herr
      obtain ⟨err', herr', hex'⟩ := hall e he
      rw [herr] at herr'
      cases herr'
      exact hex'
    have := map_continue_filterMap ns func exts hne hex
    rw [this.1]
    congr 1
    rw [List.filterMap_eq_nil_iff]
    intro e he
    obtain ⟨err, herr, _⟩ := hall e he
    simp [herr, Except.toOption]

/-- Witness for C4: a function raising an ordinary exception for the only
extension yields a normal empty result under the continue policy. -/
theorem c4_witness :
    ExtensionManager.map false "ns"
      [⟨"a", ⟨"a", "m:C", "ns"⟩, PyVal.obj 1, PyVal.none⟩]
      (fun _ => .error (.other 5)) = .ok [] :=
  (c4_map_error_policies "ns" (fun _ => .error (.other 5))).2.2
    [⟨"a", ⟨"a", "m:C", "ns"⟩, PyVal.obj 1, PyVal.none⟩]
    (by decide) (fun e _ => ⟨.other 5, rfl, rfl⟩)

/-! ## Claim C2 -/

/-- If `_load_plugins` returned normally then no entry point's load raised
`KeyboardInterrupt` or `AssertionError`: those are re-raised before any
callback or logging can swallow them. -/
theorem loadPlugins_ok_no_fatal (loadOne : EntryPoint → Except Exc (Option Extension))
    (cb : Option (EntryPoint → Exc → Except Exc Unit)) :
    ∀ eps exts, ExtensionManager.loadPlugins loadOne cb eps = .ok exts →
      ∀ ep ∈ eps, loadOne ep ≠ .error .keyboardInterrupt ∧
        loadOne ep ≠ .error .assertionError
  | [], _, _, ep, hep => absurd hep (List.not_mem_nil ep)
  | ep₀ :: rest, exts, h, ep, hep => by
    cases hl : loadOne ep₀ with
    | ok oext =>
      cases oext with
      | some ext =>
        simp only [ExtensionManager.loadPlugins, hl] at h
        cases hrest : ExtensionManager.loadPlugins loadOne cb rest with
        | ok exts' =>
          rcases List.mem_cons.mp hep with rfl | hep'
          · exact ⟨by simp [hl], by simp [hl]⟩
          · exact loadPlugins_ok_no_fatal loadOne cb rest exts' hrest ep hep'
        | error e' => simp only [hrest] at h; cases h
      | none =>
        simp only [ExtensionManager.loadPlugins, hl] at h
        rcases List.mem_cons.mp hep with rfl | hep'
        · exact ⟨by simp [hl], by simp [hl]⟩
        · exact loadPlugins_ok_no_fatal loadOne cb rest exts h ep hep'
    | error err =>
      simp only [ExtensionManager.loadPlugins, hl] at h
      split at h
      · simp at h
      · next hke =>
        have hself : loadOne ep₀ ≠ .error .keyboardInterrupt ∧
            loadOne ep₀ ≠ .error .assertionError := by
          constructor
          · intro hcon
            rw [hl] at hcon
            injection hcon with h'
            exact hke (Or.inl h')
          · intro hcon
            rw [hl] at hcon
            injection hcon with h'
            exact hke (Or.inr h')
        rcases List.mem_cons.mp hep with rfl | hep'
        · exact hself
        · cases cb with
          | some f =>
            cases hf : f ep₀ err with
            | ok u =>
              simp only [hf] at h
              exact loadPlugins_ok_no_fatal loadOne (some f) rest exts h
                ep hep'
            | error e₂ => simp only [hf] at h; cases h
          | none =>
            exact loadPlugins_ok_no_fatal loadOne Option.none rest exts h
              ep hep'

/-- Counterexample to C2 as stated: an `AssertionError` raised by the
caller-supplied function during `map` under the continue policy is caught
and swallowed (`map` returns `ok []`), not re-raised — `AssertionError` is
an `Exception`, and `_invoke_one_plugin` catches every `Exception` when
`propagate_map_exceptions` is false. -/
theorem c2_counterexample :
    ExtensionManager.map false "ns"
      [⟨"a", ⟨"a", "m:C", "ns"⟩, PyVal.obj 1, PyVal.none⟩]
      (fun _ => .error .assertionError) = .ok [] ∧
    ExtensionManager.map false "ns"
      [⟨"a", ⟨"a", "m:C", "ns"⟩, PyVal.obj 1, PyVal.none⟩]
      (fun _ => .error .assertionError) ≠ .error .assertionError := by
  constructor
  · rfl
  · intro h
    cases h

/-- C2 amended: interrupt-class signals propagate unconditionally from
both the load layer and the map layer, whatever the failure policy or
callbacks; assertion failures propagate unconditionally from the load
layer, but an assertion failure raised by the caller-supplied function
during `map` follows the propagate/continue policy like any other
`Exception` (re-raised under propagate, logged and swallowed under
continue). -/
theorem c2_interrupts_always_propagate :
    (∀ (loadOne : EntryPoint → Except Exc (Option Extension))
        (cb : Option (EntryPoint → Exc → Except Exc Unit))
        (eps : List EntryPoint) (exts : List Extension),
      ExtensionManager.loadPlugins loadOne cb eps = .ok exts →
      ∀ ep ∈ eps, loadOne ep ≠ .error .keyboardInterrupt ∧
        loadOne ep ≠ .error .assertionError) ∧
    (∀ (p : Bool) (ns : String) (exts : List Extension)
        (func : Extension → Except Exc PyVal) (vs : List PyVal),
      ExtensionManager.map p ns exts func = .ok vs →
      ∀ e ∈ exts, func e ≠ .error .keyboardInterrupt) ∧
    (∀ (p : Bool) (func : Extension → Except Exc PyVal) (e : Extension)
        (resp : List PyVal),
      func e = .error .keyboardInterrupt →
      ExtensionManager.invokeOnePlugin p func e resp =
        .error .keyboardInterrupt) ∧
    (∀ (func : Extension → Except Exc PyVal) (e : Extension)
        (resp : List PyVal),
      func e = .error .assertionError →
      ExtensionManager.invokeOnePlugin false func e resp = .ok resp ∧
      ExtensionManager.invokeOnePlugin true func e resp =
        .error .assertionError) := by
  refine ⟨?_, ?_, ?_, ?_⟩
  · intro loadOne cb eps exts h ep hep
    exact loadPlugins_ok_no_fatal loadOne cb eps exts h ep hep
  · intro p ns exts func vs h e he
    rw [ExtensionManager.map] at h
    split at h
    · cases h
    · rcases hg : ExtensionManager.mapGo p func exts with ⟨vs', tr, oe⟩
      rw [hg] at h
      cases oe with
      | none => exact mapGo_ok_no_interrupt p func exts (by rw [hg]) e he
      | some err => simp at h
  · intro p func e resp h
    simp only [ExtensionManager.invokeOnePlugin, h]
    rw [if_neg]
    intro hc
    exact absurd hc.1 (by decide)
  · intro func e resp h
    constructor
    · simp only [ExtensionManager.invokeOnePlugin, h]
      rw [if_pos]
      exact ⟨by decide, by decide⟩
    · simp only [ExtensionManager.invokeOnePlugin, h]
      rw [if_neg]
      intro hc
      exact hc.2 (by decide)

/-- Witness for the amended C2: an assertion failure from the
caller-supplied function is swallowed under continue policy and re-raised
under propagate policy, at a concrete extension. -/
theorem c2_witness :
    ExtensionManager.invokeOnePlugin false (fun _ => .error .assertionError)
      ⟨"a", ⟨"a", "m:C", "ns"⟩, PyVal.obj 1, PyVal.none⟩ [] = .ok [] ∧
    ExtensionManager.invokeOnePlugin true (fun _ => .error .assertionError)
      ⟨"a", ⟨"a", "m:C", "ns"⟩, PyVal.obj 1, PyVal.none⟩ [] =
      .error .assertionError :=
  c2_interrupts_always_propagate.2.2.2 (fun _ => .error .assertionError)
    ⟨"a", ⟨"a", "m:C", "ns"⟩, PyVal.obj 1, PyVal.none⟩ [] rfl

/-! ## Load-pipeline elimination lemmas -/

/-- A successful `_load_one_plugin` builds the extension from its entry
point: the extension's name is the entry point's name, its plugin is the
resolved value, its object is `None` without invoke-on-load and the
instantiation result with it. -/
theorem loadOnePlugin_ok_spec (resolve : EntryPoint → Except Exc PyVal)
    (instantiate : PyVal → Except Exc PyVal) (inv : Bool) (ep : EntryPoint)
    (ext : Extension)
    (h : ExtensionManager.loadOnePlugin resolve instantiate inv ep =
      .ok (some ext)) :
    ext.name = ep.name ∧ ext.entryPoint = ep ∧
    resolve ep = .ok ext.plugin ∧
    (inv = false → ext.obj = PyVal.none) ∧
    (inv = true → instantiate ext.plugin = .ok ext.obj) := by
  rw [ExtensionManager.loadOnePlugin] at h
  cases hr : resolve ep with
  | error e => simp only [hr] at h; cases h
  | ok plugin =>
    simp only [hr] at h
    cases inv with
    | false =>
      simp only [Bool.false_eq_true, if_false] at h
      cases h
      exact ⟨rfl, rfl, rfl, fun _ => rfl,
        fun hcon => absurd hcon (by decide)⟩
    | true =>
      simp only [if_true] at h
      cases hi : instantiate plugin with
      | error e => simp only [hi] at h; cases h
      | ok obj =>
        simp only [hi] at h
        cases h
        exact ⟨rfl, rfl, rfl, fun hcon => absurd hcon (by decide),
          fun _ => by rw [hi]⟩

/-- A successful named `_load_one_plugin` only accepts wanted names, and
the built extension carries the entry point's name. -/
theorem namedLoadOne_some_name (names : List String)
    (resolve : EntryPoint → Except Exc PyVal)
    (instantiate : PyVal → Except Exc PyVal) (inv : Bool) (ep : EntryPoint)
    (ext : Extension)
    (h : NamedExtensionManager.loadOnePlugin names resolve instantiate inv
      ep = .ok (some ext)) :
    ext.name = ep.name ∧ ep.name ∈ names := by
  rw [NamedExtensionManager.loadOnePlugin] at h
  split at h
  · cases h
  · next hmem =>
    exact ⟨(loadOnePlugin_ok_spec resolve instantiate inv ep ext h).1,
      not_not.mp hmem⟩

/-- The named `_load_plugins` returns the base loader's extension list
unchanged, together with the missing-names callback invocations: one call
with exactly `wanted − loaded` when that set is non-empty and a callback
is configured, no call otherwise. -/
theorem namedLoadPlugins_ok_elim (names : List String)
    (loadOne : EntryPoint → Except Exc (Option Extension))
    (cb : Option (EntryPoint → Exc → Except Exc Unit)) (mcb : Bool)
    (eps : List EntryPoint) (exts : List Extension)
    (calls : List (Finset String))
    (h : NamedExtensionManager.loadPlugins names loadOne cb mcb eps =
      .ok (exts, calls)) :
    ExtensionManager.loadPlugins loadOne cb eps = .ok exts ∧
    calls = (if NamedExtensionManager.missingNames names exts ≠ ∅ ∧ mcb
      then [NamedExtensionManager.missingNames names exts] else []) := by
  rw [NamedExtensionManager.loadPlugins] at h
  cases hb : ExtensionManager.loadPlugins loadOne cb eps with
  | ok exts₀ =>
    simp only [hb] at h
    split at h
    · next hc =>
      injection h with h₂
      rw [Prod.mk.injEq] at h₂
      obtain ⟨he, hcalls⟩ := h₂
      subst he
      subst hcalls
      exact ⟨rfl, by rw [if_pos hc]⟩
    · next hc =>
      injection h with h₂
      rw [Prod.mk.injEq] at h₂
      obtain ⟨he, hcalls⟩ := h₂
      subst he
      subst hcalls
      exact ⟨rfl, by rw [if_neg hc]⟩
  | error e => simp only [hb] at h; cases h

/-! ## Claim C9 -/

/-- The keep-first dedup loop returns a non-empty list whenever its input
list or its accumulator is non-empty. -/
theorem namedGo_ne_nil :
    ∀ (l : List EntryPoint) (acc : List (String × EntryPoint)),
      l ≠ [] ∨ acc ≠ [] → Cache.namedGo l acc ≠ []
  | [], acc, h => by
    rcases h with h | h
    · exact absurd rfl h
    · exact h
  | ep :: rest, acc, _ => by
    rw [Cache.namedGo]
    split
    · next hany =>
      obtain ⟨x, hx, _⟩ := List.any_eq_true.mp hany
      exact namedGo_ne_nil rest acc (Or.inr (List.ne_nil_of_mem hx))
    · exact namedGo_ne_nil rest (acc ++ [(ep.name, ep)])
        (Or.inr (by simp))

/-- C9: `Cache.get_single` returns the first entry point of the
name-deduplicated group mapping irrespective of the requested name (the
loop compares its variable to itself), and raises `ValueError` exactly
when the group has no entry points at all — never "not found" for a name
absent from a non-empty group. -/
theorem c9_get_single_ignores_name (e : Cache.CacheEntry)
    (group nm : String) :
    (∀ p rest, Cache.get_group_named e group = p :: rest →
      Cache.get_single e group nm = .ok p.2) ∧
    (Cache.get_group_named e group = [] →
      Cache.get_single e group nm =
        .error (.valueError
          ("No entrypoint '" ++ group ++ "' in group '" ++ nm ++ "'"))) ∧
    (Cache.get_group_named e group = [] ↔
      Cache.get_group_all e group = []) := by
  refine ⟨?_, ?_, ?_, ?_⟩
  · intro p rest h
    rw [Cache.get_single, h]
    simp [Cache.singleGo]
  · intro h
    rw [Cache.get_single, h]
    rfl
  · intro h
    by_contra hall
    exact namedGo_ne_nil _ _ (Or.inl hall) h
  · intro h
    rw [Cache.get_group_named, h]
    rfl

/-- Witness for C9: a two-entry group queried for a name that is not in
it still returns the first entry point. -/
theorem c9_witness :
    Cache.get_single
      ⟨[("g", [("n1", "v1", "g"), ("n2", "v2", "g")])], "x", "p", []⟩
      "g" "zzz" = .ok ⟨"n1", "v1", "g"⟩ :=
  (c9_get_single_ignores_name
    ⟨[("g", [("n1", "v1", "g"), ("n2", "v2", "g")])], "x", "p", []⟩
    "g" "zzz").1 ("n1", ⟨"n1", "v1", "g"⟩)
    [("n2", ⟨"n2", "v2", "g"⟩)] (by rfl)

/-! ## Claim C7 -/

/-- C7: for a hook manager built for wanted name `nm`, indexing by `nm`
returns the entire loaded extension list (all of whose members carry the
name `nm`) in the exact order `map` invokes them, and indexing by any
other name raises `KeyError`. -/
theorem c7_hook_getitem (ns nm : String) (inv : Bool)
    (resolve : EntryPoint → Except Exc PyVal)
    (instantiate : PyVal → Except Exc PyVal) (eps : List EntryPoint)
    (exts : List Extension)
    (h : HookManager.construct ns nm inv resolve instantiate eps =
      .ok exts) :
    HookManager.getItem [nm] exts nm = .ok exts ∧
    (∀ k, k ≠ nm → HookManager.getItem [nm] exts k =
      .error (.keyError k)) ∧
    (∀ e ∈ exts, e.name = nm) ∧
    (∀ fv : Extension → PyVal,
      ExtensionManager.mapTrace false exts (fun e => .ok (fv e)) = exts) := by
  rw [HookManager.construct] at h
  cases hl : NamedExtensionManager.loadPlugins [nm]
      (NamedExtensionManager.loadOnePlugin [nm] resolve instantiate inv)
      Option.none false eps with
  | ok pr =>
    rcases pr with ⟨exts₀, calls₀⟩
    rw [hl] at h
    simp only [NamedExtensionManager.initPlugins, Bool.false_eq_true,
      if_false] at h
    cases h
    have hbase := (namedLoadPlugins_ok_elim [nm] _ Option.none false eps
      exts calls₀ hl).1
    refine ⟨?_, ?_, ?_, ?_⟩
    · simp [HookManager.getItem]
    · intro k hk
      simp [HookManager.getItem, hk]
    · intro e he
      have := loadPlugins_all (fun x => x.name = nm) _ Option.none
        (fun ep ext hext => by
          have hn := namedLoadOne_some_name [nm] resolve instantiate inv ep
            ext hext
          exact hn.1.trans (List.mem_singleton.mp hn.2)) eps exts hbase e he
      exact this
    · intro fv
      rw [ExtensionManager.mapTrace, mapGo_total]
  | error e =>
    rw [hl] at h
    cases h

/-- Witness for C7: two records sharing the name "captain"; indexing by
"captain" returns both in discovery order, any other name fails. -/
theorem c7_witness :
    HookManager.getItem ["captain"]
      [⟨"captain", ⟨"captain", "m1:C1", "ns"⟩, PyVal.str "m1:C1", PyVal.none⟩,
       ⟨"captain", ⟨"captain", "m2:C2", "ns"⟩, PyVal.str "m2:C2", PyVal.none⟩]
      "captain" =
      .ok
        [⟨"captain", ⟨"captain", "m1:C1", "ns"⟩, PyVal.str "m1:C1",
          PyVal.none⟩,
         ⟨"captain", ⟨"captain", "m2:C2", "ns"⟩, PyVal.str "m2:C2",
          PyVal.none⟩] ∧
    HookManager.getItem ["captain"]
      [⟨"captain", ⟨"captain", "m1:C1", "ns"⟩, PyVal.str "m1:C1", PyVal.none⟩,
       ⟨"captain", ⟨"captain", "m2:C2", "ns"⟩, PyVal.str "m2:C2", PyVal.none⟩]
      "other" = .error (.keyError "other") := by
  have hc := c7_hook_getitem "ns" "captain" false
    (fun ep => .ok (.str ep.value)) (fun v => .ok v)
    [⟨"captain", "m1:C1", "ns"⟩, ⟨"captain", "m2:C2", "ns"⟩]
    [⟨"captain", ⟨"captain", "m1:C1", "ns"⟩, PyVal.str "m1:C1", PyVal.none⟩,
     ⟨"captain", ⟨"captain", "m2:C2", "ns"⟩, PyVal.str "m2:C2", PyVal.none⟩]
    (by rfl)
  exact ⟨hc.1, hc.2.1 "other" (by decide)⟩

/-! ## Claim C3 -/

/-- A successful named `_load_one_plugin` that produced an extension went
through the base loader. -/
theorem namedLoadOne_some_base (names : List String)
    (resolve : EntryPoint → Except Exc PyVal)
    (instantiate : PyVal → Except Exc PyVal) (inv : Bool) (ep : EntryPoint)
    (ext : Extension)
    (h : NamedExtensionManager.loadOnePlugin names resolve instantiate inv
      ep = .ok (some ext)) :
    ExtensionManager.loadOnePlugin resolve instantiate inv ep =
      .ok (some ext) := by
  rw [NamedExtensionManager.loadOnePlugin] at h
  split at h
  · cases h
  · exact h

/-- Counterexample to C3 as stated: with `invoke_on_load` requested and an
instantiation that returns the falsy object `0`, the single surviving
extension's `.driver` is the raw loadable, not the instantiated object —
`driver` tests `ext.obj` for Python *truthiness*, not for presence. -/
theorem c3_counterexample :
    DriverManager.construct "ns" "a" true
      (fun _ => .ok (.obj 1)) (fun _ => .ok (.int 0)) [⟨"a", "m:C", "ns"⟩] =
      .ok [⟨"a", ⟨"a", "m:C", "ns"⟩, .obj 1, .int 0⟩] ∧
    DriverManager.driver [⟨"a", ⟨"a", "m:C", "ns"⟩, .obj 1, .int 0⟩] =
      .obj 1 ∧
    (PyVal.obj 1 : PyVal) ≠ .int 0 :=
  ⟨rfl, rfl, by decide⟩

/-- C3 amended: driver construction with zero surviving extensions fails
with `NoMatches` and with more than one fails with `MultipleMatches`; with
exactly one, `.driver` returns the instantiated object whenever
`invoke_on_load` was requested *and the instantiated object is truthy*,
and the raw loadable otherwise (no invoke-on-load, or a falsy object). -/
theorem c3_driver_manager (ns nm : String) (inv : Bool)
    (resolve : EntryPoint → Except Exc PyVal)
    (instantiate : PyVal → Except Exc PyVal) (eps : List EntryPoint)
    (exts : List Extension) (calls : List (Finset String))
    (hload : NamedExtensionManager.loadPlugins [nm]
      (NamedExtensionManager.loadOnePlugin [nm] resolve instantiate inv)
      (some DriverManager.defaultOnLoadFailure) true eps =
      .ok (exts, calls)) :
    (exts = [] → DriverManager.construct ns nm inv resolve instantiate eps =
      .error (.noMatches
        ("No '" ++ ns ++ "' driver found, looking for '" ++ nm ++ "'"))) ∧
    (1 < exts.length →
      DriverManager.construct ns nm inv resolve instantiate eps =
        .error (.multipleMatches
          ("Multiple '" ++ ns ++ "' drivers found: " ++
            String.intercalate ","
              (exts.map (fun e => e.entryPoint.value))))) ∧
    (∀ e, exts = [e] →
      DriverManager.construct ns nm inv resolve instantiate eps = .ok [e] ∧
      (inv = false → DriverManager.driver [e] = e.plugin) ∧
      (inv = true → instantiate e.plugin = .ok e.obj) ∧
      (e.obj.truthy = true → DriverManager.driver [e] = e.obj) ∧
      (e.obj.truthy = false → DriverManager.driver [e] = e.plugin)) := by
  have hcon : DriverManager.construct ns nm inv resolve instantiate eps =
      DriverManager.initPlugins ns [nm] exts := by
    rw [DriverManager.construct, hload]
    simp only [NamedExtensionManager.initPlugins, Bool.false_eq_true,
      if_false]
  have hbase := (namedLoadPlugins_ok_elim [nm] _
    (some DriverManager.defaultOnLoadFailure) true eps exts calls hload).1
  have hall := loadPlugins_all
    (fun x => (inv = false → x.obj = PyVal.none) ∧
      (inv = true → instantiate x.plugin = .ok x.obj)) _
    (some DriverManager.defaultOnLoadFailure)
    (fun ep ext hext => by
      have hb := namedLoadOne_some_base [nm] resolve instantiate inv ep ext
        hext
      have hs := loadOnePlugin_ok_spec resolve instantiate inv ep ext hb
      exact ⟨hs.2.2.2.1, hs.2.2.2.2⟩) eps exts hbase
  refine ⟨?_, ?_, ?_⟩
  · intro he
    rw [hcon, he]
    rfl
  · intro hlen
    rw [hcon, DriverManager.initPlugins]
    rw [if_neg (by intro hnil; rw [hnil] at hlen; simp at hlen)]
    rw [if_pos hlen]
  · intro e he
    subst he
    refine ⟨?_, ?_, ?_, ?_, ?_⟩
    · rw [hcon]
      rfl
    · intro hinv
      have hobj := (hall e (List.mem_singleton_self e)).1 hinv
      simp [DriverManager.driver, hobj, PyVal.truthy]
    · intro hinv
      exact (hall e (List.mem_singleton_self e)).2 hinv
    · intro ht
      simp [DriverManager.driver, ht]
    · intro ht
      simp [DriverManager.driver, ht]

/-- Witness for the amended C3: a one-record namespace with invoke-on-load
and a truthy instantiated object — construction succeeds and `.driver`
returns the object. -/
theorem c3_witness :
    DriverManager.construct "ns" "a" true
      (fun _ => .ok (.obj 2)) (fun _ => .ok (.obj 3)) [⟨"a", "m:C", "ns"⟩] =
      .ok [⟨"a", ⟨"a", "m:C", "ns"⟩, .obj 2, .obj 3⟩] ∧
    DriverManager.driver [⟨"a", ⟨"a", "m:C", "ns"⟩, .obj 2, .obj 3⟩] =
      .obj 3 := by
  have h := (c3_driver_manager "ns" "a" true
    (fun _ => .ok (.obj 2)) (fun _ => .ok (.obj 3)) [⟨"a", "m:C", "ns"⟩]
    [⟨"a", ⟨"a", "m:C", "ns"⟩, .obj 2, .obj 3⟩] [] (by rfl)).2.2
    ⟨"a", ⟨"a", "m:C", "ns"⟩, .obj 2, .obj 3⟩ rfl
  exact ⟨h.1, h.2.2.2.1 rfl⟩

/-! ## Claim C6 -/

/-- C6: unwanted records are rejected before resolution (for *any*
resolver); every loaded extension carries a wanted name; the missing set
is `wanted − loaded-names`; the missing-names callback is invoked exactly
once with exactly that set iff it is non-empty and a callback is
configured; and the loaded extension list is exactly what the base loader
produced, untouched by the missing-names computation. -/
theorem c6_named_manager (names : List String)
    (resolve : EntryPoint → Except Exc PyVal)
    (instantiate : PyVal → Except Exc PyVal) (inv : Bool)
    (cb : Option (EntryPoint → Exc → Except Exc Unit)) (mcb : Bool)
    (eps : List EntryPoint) (exts : List Extension)
    (calls : List (Finset String))
    (hL : NamedExtensionManager.loadPlugins names
      (NamedExtensionManager.loadOnePlugin names resolve instantiate inv)
      cb mcb eps = .ok (exts, calls)) :
    (∀ (resolveB : EntryPoint → Except Exc PyVal)
        (instantiateB : PyVal → Except Exc PyVal) (invB : Bool)
        (ep : EntryPoint), ep.name ∉ names →
      NamedExtensionManager.loadOnePlugin names resolveB instantiateB invB
        ep = .ok Option.none) ∧
    (∀ e ∈ exts, e.name ∈ names) ∧
    NamedExtensionManager.missingNames names exts =
      names.toFinset \ (exts.map (fun e => e.name)).toFinset ∧
    (calls ≠ [] ↔
      (NamedExtensionManager.missingNames names exts ≠ ∅ ∧ mcb)) ∧
    (∀ s ∈ calls, s = NamedExtensionManager.missingNames names exts) ∧
    calls.length ≤ 1 ∧
    ExtensionManager.loadPlugins
      (NamedExtensionManager.loadOnePlugin names resolve instantiate inv)
      cb eps = .ok exts := by
  obtain ⟨hbase, hcalls⟩ := namedLoadPlugins_ok_elim names _ cb mcb eps
    exts calls hL
  refine ⟨?_, ?_, rfl, ?_, ?_, ?_, hbase⟩
  · intro resolveB instantiateB invB ep hmem
    rw [NamedExtensionManager.loadOnePlugin, if_pos hmem]
  · intro e he
    exact loadPlugins_all (fun x => x.name ∈ names) _ cb
      (fun ep ext hext => by
        have hn := namedLoadOne_some_name names resolve instantiate inv ep
          ext hext
        show ext.name ∈ names
        rw [hn.1]
        exact hn.2) eps exts hbase e he
  · rw [hcalls]
    split
    · next hc => simp only [ne_eq, List.cons_ne_self, not_false_iff]
      <;> exact iff_of_true (by simp) hc
    · next hc => exact iff_of_false (by simp) hc
  · intro s hs
    rw [hcalls] at hs
    split at hs
    · rcases List.mem_singleton.mp hs with rfl
      rfl
    · exact absurd hs (List.not_mem_nil s)
  · rw [hcalls]
    split <;> simp

/-- Witness for C6: wanted names `["a","missing"]` against a registry
providing only `"a"` — the callback is invoked with exactly `{"missing"}`
and `"a"` is still loaded. -/
theorem c6_witness :
    ([({"missing"} : Finset String)] ≠ [] ↔
      (NamedExtensionManager.missingNames ["a", "missing"]
        [⟨"a", ⟨"a", "mod:A", "ns"⟩, PyVal.str "mod:A", PyVal.none⟩] ≠ ∅ ∧
        true = true)) ∧
    (∀ s ∈ [({"missing"} : Finset String)],
      s = NamedExtensionManager.missingNames ["a", "missing"]
        [⟨"a", ⟨"a", "mod:A", "ns"⟩, PyVal.str "mod:A", PyVal.none⟩]) ∧
    (∀ e ∈ [(⟨"a", ⟨"a", "mod:A", "ns"⟩, PyVal.str "mod:A", PyVal.none⟩ :
        Extension)], e.name ∈ ["a", "missing"]) := by
  have h := c6_named_manager ["a", "missing"]
    (fun ep => .ok (.str ep.value)) (fun v => .ok v) false Option.none true
    [⟨"a", "mod:A", "ns"⟩]
    [⟨"a", ⟨"a", "mod:A", "ns"⟩, PyVal.str "mod:A", PyVal.none⟩]
    [{"missing"}] (by rfl)
  exact ⟨h.2.2.2.1, h.2.2.2.2.1, h.2.1⟩

/-! ## Claim C8 -/

/-- Lookup in `_internal` after appending a fresh entry for the looked-up
key. -/
theorem internalGet_append_self (m : List (List String × Cache.CacheEntry))
    (k : List String) (d : Cache.CacheEntry)
    (h : Cache.internalGet m k = Option.none) :
    Cache.internalGet (m ++ [(k, d)]) k = some d := by
  rw [Cache.internalGet, List.find?_append]
  rw [Cache.internalGet] at h
  cases hf : m.find? (fun p => p.1 = k) with
  | some p => rw [hf] at h; simp at h
  | none => simp

/-- Counterexample to C8 as stated: with caching disabled (sentinel file
present), a query still *reads and uses* a previously persisted durable
cache file instead of rebuilding, and a second query is answered from the
in-process memoized entry even after the durable file disappears.  Only
the durable write is skipped. -/
theorem c8_counterexample :
    Cache.mkDisableCaching true "/usr/bin/python3" = true ∧
    (Cache.getDataForPath
      (fun f => if f = "d/h" then
        some ⟨[("g", [("n", "v", "g")])], "exe", "pre", []⟩ else Option.none)
      ⟨[], "exe", "pre", []⟩ (fun _ => ("h", []))
      ⟨"d", [], true⟩ ["p"]).1 =
      ⟨[("g", [("n", "v", "g")])], "exe", "pre", []⟩ ∧
    (⟨[("g", [("n", "v", "g")])], "exe", "pre", []⟩ : Cache.CacheEntry) ≠
      ⟨[], "exe", "pre", []⟩ ∧
    (Cache.getDataForPath (fun _ => Option.none) ⟨[], "exe", "pre", []⟩
      (fun _ => ("h", []))
      (Cache.getDataForPath
        (fun f => if f = "d/h" then
          some ⟨[("g", [("n", "v", "g")])], "exe", "pre", []⟩
          else Option.none)
        ⟨[], "exe", "pre", []⟩ (fun _ => ("h", []))
        ⟨"d", [], true⟩ ["p"]).2.1 ["p"]).1 =
      ⟨[("g", [("n", "v", "g")])], "exe", "pre", []⟩ := by
  refine ⟨rfl, rfl, ?_, rfl⟩
  intro h
  cases h

/-- C8 amended: when caching is disabled (sentinel file, or interpreter in
a temp location) a query never writes the durable cache file; but a
pre-existing durable cache file is still read and used on an in-process
miss, the in-process memoized entry still answers repeated queries, and a
rebuilt dataset is still memoized in-process. -/
theorem c8_disable_only_skips_write
    (fsRead : String → Option Cache.CacheEntry) (build : Cache.CacheEntry)
    (hs : List String → String × List (String × Int))
    (st : Cache.CacheState) (key : List String)
    (hdis : st.disableCaching = true) :
    (Cache.getDataForPath fsRead build hs st key).2.2 = [] ∧
    (∀ d, Cache.internalGet st.internal key = some d →
      (Cache.getDataForPath fsRead build hs st key).1 = d) ∧
    (Cache.internalGet st.internal key = Option.none →
      ∀ d, fsRead (st.dir ++ "/" ++ (hs key).1) = some d →
        (Cache.getDataForPath fsRead build hs st key).1 = d) ∧
    (Cache.internalGet st.internal key = Option.none →
      fsRead (st.dir ++ "/" ++ (hs key).1) = Option.none →
      (Cache.getDataForPath fsRead build hs st key).1 =
        { build with pathValues := (hs key).2 } ∧
      Cache.internalGet
        (Cache.getDataForPath fsRead build hs st key).2.1.internal key =
        some { build with pathValues := (hs key).2 }) := by
  refine ⟨?_, ?_, ?_, ?_⟩
  · cases hin : Cache.internalGet st.internal key with
    | some d => simp [Cache.getDataForPath, hin]
    | none =>
      cases hf : fsRead (st.dir ++ "/" ++ (hs key).1) with
      | some d => simp [Cache.getDataForPath, hin, hf]
      | none => simp [Cache.getDataForPath, hin, hf, hdis]
  · intro d hin
    simp [Cache.getDataForPath, hin]
  · intro hin d hf
    simp [Cache.getDataForPath, hin, hf]
  · intro hin hf
    constructor
    · simp [Cache.getDataForPath, hin, hf]
    · simp only [Cache.getDataForPath, hin, hf]
      exact internalGet_append_self st.internal key _ hin

/-- Witness for the amended C8: disabled state, no memo, no durable file —
the dataset is rebuilt with the hashed path values, nothing is written,
and the rebuilt dataset is memoized in-process. -/
theorem c8_witness :
    (Cache.getDataForPath (fun _ => Option.none) ⟨[], "exe", "pre", []⟩
      (fun _ => ("h", [("p", 7)])) ⟨"d", [], true⟩ ["p"]).2.2 = [] ∧
    (Cache.getDataForPath (fun _ => Option.none) ⟨[], "exe", "pre", []⟩
      (fun _ => ("h", [("p", 7)])) ⟨"d", [], true⟩ ["p"]).1 =
      ⟨[], "exe", "pre", [("p", 7)]⟩ := by
  have h := c8_disable_only_skips_write (fun _ => Option.none)
    ⟨[], "exe", "pre", []⟩ (fun _ => ("h", [("p", 7)]))
    ⟨"d", [], true⟩ ["p"] rfl
  exact ⟨h.1, (h.2.2.2 rfl rfl).1⟩

/-! ## Name-index infrastructure (for C10 and C1) -/

/-- Unfolding `dictGet` over a cons cell. -/
theorem dictGet_cons (p : String × Extension)
    (d : List (String × Extension)) (k : String) :
    ExtensionManager.dictGet (p :: d) k =
      if p.1 = k then some p.2 else ExtensionManager.dictGet d k := by
  rw [ExtensionManager.dictGet]
  by_cases hp : p.1 = k
  · rw [List.find?_cons_of_pos _ (by simpa using hp), if_pos hp]
    rfl
  · rw [List.find?_cons_of_neg _ (by simpa using hp), if_neg hp]
    rfl

/-- Mapping the dict-update function over entries none of which carry the
updated key changes nothing. -/
theorem dictMap_id_of_no_key :
    ∀ (d : List (String × Extension)) (k : String) (v : Extension),
      d.any (fun p => p.1 = k) = false →
      d.map (fun p => if p.1 = k then (k, v) else p) = d
  | [], _, _, _ => rfl
  | p :: d', k, v, h => by
    rw [List.any_cons, Bool.or_eq_false_iff] at h
    rw [List.map_cons, if_neg (by simpa using h.1),
      dictMap_id_of_no_key d' k v h.2]

/-- Python-dict update: looking up the inserted key finds the new value. -/
theorem dictGet_insert_self :
    ∀ (d : List (String × Extension)) (k : String) (v : Extension),
      ExtensionManager.dictGet (ExtensionManager.dictInsert d k v) k = some v
  | [], k, v => by
    simp [ExtensionManager.dictInsert, ExtensionManager.dictGet]
  | p :: d', k, v => by
    by_cases hp : p.1 = k
    · have hany : (p :: d').any (fun q => q.1 = k) = true := by simp [hp]
      rw [ExtensionManager.dictInsert, if_pos hany, List.map_cons,
        if_pos hp, dictGet_cons, if_pos rfl]
    · cases hd : d'.any (fun q => q.1 = k) with
      | true =>
        have hany : (p :: d').any (fun q => q.1 = k) = true := by simp [hd]
        rw [ExtensionManager.dictInsert, if_pos hany, List.map_cons,
          if_neg hp, dictGet_cons, if_neg hp]
        have htail := dictGet_insert_self d' k v
        rw [ExtensionManager.dictInsert, if_pos hd] at htail
        exact htail
      | false =>
        have hany : (p :: d').any (fun q => q.1 = k) = false := by
          simp [hp, hd]
        rw [ExtensionManager.dictInsert, if_neg (by simp [hany])]
        rw [List.cons_append, dictGet_cons, if_neg hp]
        have htail := dictGet_insert_self d' k v
        rw [ExtensionManager.dictInsert, if_neg (by simp [hd])] at htail
        exact htail

/-- Python-dict update: any other key is unaffected. -/
theorem dictGet_insert_other :
    ∀ (d : List (String × Extension)) (k : String) (v : Extension)
      (k' : String), k' ≠ k →
      ExtensionManager.dictGet (ExtensionManager.dictInsert d k v) k' =
        ExtensionManager.dictGet d k'
  | [], k, v, k', hk => by
    rw [ExtensionManager.dictInsert, if_neg (by simp)]
    rw [List.nil_append, dictGet_cons, if_neg (Ne.symm hk)]
  | p :: d', k, v, k', hk => by
    by_cases hp : p.1 = k
    · have hany : (p :: d').any (fun q => q.1 = k) = true := by simp [hp]
      rw [ExtensionManager.dictInsert, if_pos hany, List.map_cons,
        if_pos hp, dictGet_cons, if_neg (Ne.symm hk), dictGet_cons,
        if_neg (fun hc => hk ((hp ▸ hc).symm))]
      cases hd : d'.any (fun q => q.1 = k) with
      | true =>
        have ih := dictGet_insert_other d' k v k' hk
        rw [ExtensionManager.dictInsert, if_pos hd] at ih
        exact ih
      | false => rw [dictMap_id_of_no_key d' k v hd]
    · cases hd : d'.any (fun q => q.1 = k) with
      | true =>
        have hany : (p :: d').any (fun q => q.1 = k) = true := by simp [hd]
        rw [ExtensionManager.dictInsert, if_pos hany, List.map_cons,
          if_neg hp, dictGet_cons, dictGet_cons]
        by_cases hpk : p.1 = k'
        · rw [if_pos hpk, if_pos hpk]
        · rw [if_neg hpk, if_neg hpk]
          have ih := dictGet_insert_other d' k v k' hk
          rw [ExtensionManager.dictInsert, if_pos hd] at ih
          exact ih
      | false =>
        have hany : (p :: d').any (fun q => q.1 = k) = false := by
          simp [hp, hd]
        rw [ExtensionManager.dictInsert, if_neg (by simp [hany])]
        rw [List.cons_append, dictGet_cons, dictGet_cons]
        by_cases hpk : p.1 = k'
        · rw [if_pos hpk, if_pos hpk]
        · rw [if_neg hpk, if_neg hpk]
          have ih := dictGet_insert_other d' k v k' hk
          rw [ExtensionManager.dictInsert, if_neg (by simp [hd])] at ih
          exact ih

/-- Every member of a `groupby` run carries the run's name. -/
theorem groupByRuns_run_names :
    ∀ (l : List Extension) (p : Extension × List Extension),
      p ∈ ExtensionManager.groupByRuns l →
      ∀ x ∈ p.1 :: p.2, x.name = p.1.name
  | [], p, hp, x, hx => absurd hp (List.not_mem_nil p)
  | e :: rest, p, hp, x, hx => by
    cases hg : ExtensionManager.groupByRuns rest with
    | nil =>
      simp only [ExtensionManager.groupByRuns, hg] at hp
      rcases List.mem_singleton.mp hp with rfl
      rcases List.mem_cons.mp hx with rfl | hx'
      · rfl
      · exact absurd hx' (List.not_mem_nil x)
    | cons q gs =>
      rcases q with ⟨f, g⟩
      simp only [ExtensionManager.groupByRuns, hg] at hp
      split at hp
      · next hname =>
        rcases List.mem_cons.mp hp with rfl | hp'
        · rcases List.mem_cons.mp hx with rfl | hx'
          · rfl
          · have hf := groupByRuns_run_names rest (f, g)
              (by rw [hg]; exact List.mem_cons_self _ _) x hx'
            rw [hf, ← hname]
        · exact groupByRuns_run_names rest p
            (by rw [hg]; exact List.mem_cons_of_mem _ hp') x hx
      · rcases List.mem_cons.mp hp with rfl | hp'
        · rcases List.mem_cons.mp hx with rfl | hx'
          · rfl
          · exact absurd hx' (List.not_mem_nil x)
        · exact groupByRuns_run_names rest p (by rw [hg]; exact hp') x hx

/-- When the conflict resolver returns a member of the group it was given,
`chooseRun` picks a member of the run. -/
theorem chooseRun_mem
    (resolver : String → String → List Extension → Except Exc Extension)
    (ns : String)
    (hres : ∀ ns' n g e, resolver ns' n g = .ok e → e ∈ g)
    (p : Extension × List Extension) (e : Extension)
    (h : ExtensionManager.chooseRun resolver ns p = .ok e) :
    e ∈ p.1 :: p.2 := by
  rw [ExtensionManager.chooseRun] at h
  cases hp2 : p.2 with
  | nil =>
    simp only [hp2] at h
    injection h with h2
    rw [← h2]
    exact List.mem_cons_self _ _
  | cons y ys =>
    simp only [hp2] at h
    exact hres ns p.1.name (p.1 :: y :: ys) e h

/-- Every value stored by the `_extensions_by_name` loop is keyed by its
own name (given a resolver returning a member of its group and
well-formed runs). -/
theorem byNameGo_names
    (resolver : String → String → List Extension → Except Exc Extension)
    (ns : String)
    (hres : ∀ ns' n g e, resolver ns' n g = .ok e → e ∈ g) :
    ∀ (gs : List (Extension × List Extension))
      (d : List (String × Extension))
      (log : List ExtensionManager.ResolverCall)
      (D : List (String × Extension))
      (L : List ExtensionManager.ResolverCall),
      (∀ p ∈ gs, ∀ x ∈ p.1 :: p.2, x.name = p.1.name) →
      ExtensionManager.byNameGo resolver ns gs d log = .ok (D, L) →
      (∀ k e, ExtensionManager.dictGet d k = some e → e.name = k) →
      ∀ k e, ExtensionManager.dictGet D k = some e → e.name = k
  | [], d, log, D, L, hwf, h, hd, k, e, hDk => by
    rw [ExtensionManager.byNameGo] at h
    injection h with h₂
    rw [Prod.mk.injEq] at h₂
    obtain ⟨hD, hL⟩ := h₂
    subst hD
    exact hd k e hDk
  | p :: gs', d, log, D, L, hwf, h, hd, k, e, hDk => by
    rw [ExtensionManager.byNameGo] at h
    cases hc : ExtensionManager.chooseRun resolver ns p with
    | error err => simp only [hc] at h; cases h
    | ok chosen =>
      simp only [hc] at h
      have hcn : chosen.name = p.1.name :=
        hwf p (List.mem_cons_self _ _) chosen
          (chooseRun_mem resolver ns hres p chosen hc)
      refine byNameGo_names resolver ns hres gs' _ _ D L
        (fun q hq => hwf q (List.mem_cons_of_mem _ hq)) h ?_ k e hDk
      intro k' e' hke
      by_cases hkp : k' = p.1.name
      · subst hkp
        rw [dictGet_insert_self] at hke
        injection hke with h₃
        rw [← h₃]
        exact hcn
      · rw [dictGet_insert_other d p.1.name chosen k' hkp] at hke
        exact hd k' e' hke

/-- The lookup comprehension of `_init_plugins`: every element comes from
the index at its own name, and with pairwise-distinct requested names, no
name appears twice in the result. -/
theorem lookupEach_spec (d : List (String × Extension))
    (hd : ∀ k e, ExtensionManager.dictGet d k = some e → e.name = k) :
    ∀ (ns' : List String) (res : List Extension),
      NamedExtensionManager.lookupEach d ns' = .ok res →
      (∀ e ∈ res, e.name ∈ ns' ∧
        ExtensionManager.dictGet d e.name = some e) ∧
      (ns'.Nodup →
        ∀ n, (res.filter (fun e => e.name = n)).length ≤ 1)
  | [], res, h => by
    rw [NamedExtensionManager.lookupEach] at h
    injection h with h₂
    subst h₂
    exact ⟨fun e he => absurd he (List.not_mem_nil e),
      fun _ n => by simp⟩
  | n :: rest, res, h => by
    rw [NamedExtensionManager.lookupEach] at h
    cases hg : ExtensionManager.dictGet d n with
    | none => simp only [hg] at h; cases h
    | some e₀ =>
      simp only [hg] at h
      cases hr : NamedExtensionManager.lookupEach d rest with
      | error err => simp only [hr] at h; cases h
      | ok res' =>
        simp only [hr] at h
        injection h with h₂
        subst h₂
        have hname := hd n e₀ hg
        obtain ⟨ih1, ih2⟩ := lookupEach_spec d hd rest res' hr
        constructor
        · intro e he
          rcases List.mem_cons.mp he with rfl | he'
          · exact ⟨by rw [hname]; exact List.mem_cons_self _ _,
              by rw [hname]; exact hg⟩
          · obtain ⟨ha, hb⟩ := ih1 e he'
            exact ⟨List.mem_cons_of_mem _ ha, hb⟩
        · intro hnodup n'
          rw [List.filter_cons]
          by_cases hn' : e₀.name = n'
          · rw [if_pos (by simpa using hn')]
            have hempty : res'.filter (fun e => e.name = n') = [] := by
              rw [List.filter_eq_nil_iff]
              intro e he hcon
              have hmem := (ih1 e he).1
              have hen' : e.name = n' := by simpa using hcon
              rw [hen', ← hn', hname] at hmem
              exact (List.nodup_cons.mp hnodup).1 hmem
            rw [hempty]
            simp
          · rw [if_neg (by simpa using hn')]
            exact ih2 (List.Nodup.of_cons hnodup) n'

/-! ## Claim C10 -/

/-- Counterexample to C10 as stated: a wanted-name list that repeats a
name (`["a","a"]`) with `name_order` set yields the conflict-resolved
Extension once *per occurrence*, so the collection holds two entries named
`"a"` — not at most one per distinct wanted name. -/
theorem c10_counterexample :
    NamedExtensionManager.initPlugins true ["a", "a"]
      ExtensionManager.ignoreConflicts "ns"
      [⟨"a", ⟨"a", "m:C", "ns"⟩, .obj 1, .none⟩] =
      .ok [⟨"a", ⟨"a", "m:C", "ns"⟩, .obj 1, .none⟩,
        ⟨"a", ⟨"a", "m:C", "ns"⟩, .obj 1, .none⟩] ∧
    ¬(([⟨"a", ⟨"a", "m:C", "ns"⟩, PyVal.obj 1, PyVal.none⟩,
        ⟨"a", ⟨"a", "m:C", "ns"⟩, PyVal.obj 1, PyVal.none⟩] :
        List Extension).filter (fun e => e.name = "a")).length ≤ 1 := by
  constructor
  · rfl
  · decide

/-- C10 amended: with `name_order` set and a wanted-name list without
duplicates (and a conflict resolver that returns a member of its group),
the final collection holds at most one Extension per distinct wanted name,
each obtained from the conflict-resolved name index at its own name; a
duplicated wanted name instead contributes the index entry once per
occurrence.  With `name_order` false the loaded collection is kept
unchanged, duplicates included. -/
theorem c10_name_order_dedup (names : List String)
    (resolver : String → String → List Extension → Except Exc Extension)
    (ns : String) (exts res : List Extension)
    (hnodup : names.Nodup)
    (hres : ∀ ns' n g e, resolver ns' n g = .ok e → e ∈ g)
    (h : NamedExtensionManager.initPlugins true names resolver ns exts =
      .ok res) :
    (∀ n, (res.filter (fun e => e.name = n)).length ≤ 1) ∧
    (∀ e ∈ res, ∃ d log,
      ExtensionManager.extensionsByName resolver ns exts = .ok (d, log) ∧
      ExtensionManager.dictGet d e.name = some e) ∧
    NamedExtensionManager.initPlugins false names resolver ns exts =
      .ok exts := by
  have hfalse : NamedExtensionManager.initPlugins false names resolver ns
      exts = .ok exts := by
    rw [NamedExtensionManager.initPlugins, if_neg (by simp)]
  rw [NamedExtensionManager.initPlugins, if_pos rfl] at h
  split at h
  case h_2 e hbn => cases h
  case h_1 d log hbn =>
    have hbn' := hbn
    rw [ExtensionManager.extensionsByName] at hbn'
    have hdnames : ∀ k e, ExtensionManager.dictGet d k = some e →
        e.name = k := by
      refine byNameGo_names resolver ns hres
        (ExtensionManager.groupByRuns exts) [] [] d log
        (fun p hp => groupByRuns_run_names exts p hp) hbn' ?_
      intro k e hke
      rw [ExtensionManager.dictGet] at hke
      simp at hke
    obtain ⟨h1, h2⟩ := lookupEach_spec d hdnames _ res h
    exact ⟨h2 (List.Nodup.filter _ hnodup),
      fun e he => ⟨d, log, hbn, (h1 e he).2⟩, hfalse⟩

/-- Witness for the amended C10: distinct wanted names `["b","a"]` over a
collection loaded as `[a, b]` — the reordered collection holds one entry
per name. -/
theorem c10_witness :
    (([⟨"b", ⟨"b", "m:B", "ns"⟩, PyVal.obj 2, PyVal.none⟩,
       ⟨"a", ⟨"a", "m:A", "ns"⟩, PyVal.obj 1, PyVal.none⟩] :
       List Extension).filter (fun e => e.name = "a")).length ≤ 1 := by
  have h := c10_name_order_dedup ["b", "a"]
    (fun ns' n g => match g with
      | x :: _ => .ok x
      | [] => .error (.other 0)) "ns"
    [⟨"a", ⟨"a", "m:A", "ns"⟩, PyVal.obj 1, PyVal.none⟩,
     ⟨"b", ⟨"b", "m:B", "ns"⟩, PyVal.obj 2, PyVal.none⟩]
    [⟨"b", ⟨"b", "m:B", "ns"⟩, PyVal.obj 2, PyVal.none⟩,
     ⟨"a", ⟨"a", "m:A", "ns"⟩, PyVal.obj 1, PyVal.none⟩]
    (by decide)
    (by
      intro ns' n g e hmem
      cases g with
      | nil => cases hmem
      | cons y ys =>
        injection hmem with h₂
        rw [← h₂]
        exact List.mem_cons_self _ _)
    (by rfl)
  exact h.1 "a"

/-! ## Claim C1 -/

/-- `groupby` yields no runs only for the empty list. -/
theorem groupByRuns_eq_nil (l : List Extension) :
    ExtensionManager.groupByRuns l = [] ↔ l = [] := by
  cases l with
  | nil => simp [ExtensionManager.groupByRuns]
  | cons e rest =>
    constructor
    · intro h
      cases hg : ExtensionManager.groupByRuns rest with
      | nil => simp only [ExtensionManager.groupByRuns, hg] at h; cases h
      | cons q gs =>
        rcases q with ⟨f, g⟩
        simp only [ExtensionManager.groupByRuns, hg] at h
        by_cases hm : e.name = f.name
        · rw [if_pos hm] at h; cases h
        · rw [if_neg hm] at h; cases h
    · intro h
      cases h

/-- Being grouped (no two runs share a name) is preserved by dropping the
head element. -/
theorem grouped_tail (e : Extension) (rest : List Extension)
    (hg : ((ExtensionManager.groupByRuns (e :: rest)).map
      (fun p => p.1.name)).Nodup) :
    ((ExtensionManager.groupByRuns rest).map (fun p => p.1.name)).Nodup := by
  cases hr : ExtensionManager.groupByRuns rest with
  | nil => simp
  | cons q gs =>
    rcases q with ⟨f, g⟩
    simp only [ExtensionManager.groupByRuns, hr] at hg
    split at hg
    · next hname =>
      simp only [List.map_cons] at hg ⊢
      show (f.name :: gs.map (fun p => p.1.name)).Nodup
      rw [← hname]
      exact hg
    · simp only [List.map_cons] at hg
      exact List.Nodup.of_cons hg

/-- In a grouped collection, the extensions carrying a name are exactly
the members of the (unique) run keyed by that name. -/
theorem groupByRuns_filter :
    ∀ (l : List Extension),
      ((ExtensionManager.groupByRuns l).map (fun p => p.1.name)).Nodup →
      ∀ n, l.filter (fun x => x.name = n) =
        (match (ExtensionManager.groupByRuns l).find?
            (fun p => p.1.name = n) with
         | some p => p.1 :: p.2
         | Option.none => [])
  | [], _, n => rfl
  | e :: rest, hg, n => by
    have hgr := grouped_tail e rest hg
    have ih := groupByRuns_filter rest hgr n
    cases hr : ExtensionManager.groupByRuns rest with
    | nil =>
      have hrest : rest = [] := (groupByRuns_eq_nil rest).mp hr
      subst hrest
      simp only [ExtensionManager.groupByRuns, List.filter_cons,
        List.filter_nil]
      by_cases hn : e.name = n
      · rw [if_pos (by simpa using hn)]
        rw [List.find?_cons_of_pos _ (by simpa using hn)]
      · rw [if_neg (by simpa using hn)]
        rw [List.find?_cons_of_neg _ (by simpa using hn)]
        rfl
    | cons q gs =>
      rcases q with ⟨f, g⟩
      rw [hr] at ih
      simp only [ExtensionManager.groupByRuns, hr]
      rw [List.filter_cons]
      by_cases hm : e.name = f.name
      · rw [if_pos hm]
        by_cases hn : e.name = n
        · rw [if_pos (by simpa using hn)]
          rw [List.find?_cons_of_pos _ (by simpa using hn)]
          rw [List.find?_cons_of_pos _
            (by simpa using (hm ▸ hn : f.name = n))] at ih
          rw [ih]
        · rw [if_neg (by simpa using hn)]
          rw [List.find?_cons_of_neg _ (by simpa using hn)]
          rw [List.find?_cons_of_neg _
            (by simpa using (fun hc => hn (hm.trans hc)))] at ih
          exact ih
      · rw [if_neg hm]
        by_cases hn : e.name = n
        · rw [if_pos (by simpa using hn)]
          rw [List.find?_cons_of_pos _ (by simpa using hn)]
          have hnotmem : n ∉ ((f, g) :: gs).map (fun p => p.1.name) := by
            simp only [ExtensionManager.groupByRuns, hr] at hg
            rw [if_neg hm, List.map_cons] at hg
            rw [← hn]
            exact (List.nodup_cons.mp hg).1
          have hfind : ((f, g) :: gs).find? (fun p => p.1.name = n) =
              Option.none := by
            rw [List.find?_eq_none]
            intro p hp hc
            exact hnotmem (List.mem_map.mpr ⟨p, hp, of_decide_eq_true hc⟩)
          rw [hfind] at ih
          rw [ih]
        · rw [if_neg (by simpa using hn)]
          rw [List.find?_cons_of_neg _ (by simpa using hn)]
          exact ih

/-- A run's resolver call survives filtering by the run's own name. -/
theorem runCall_filter_self (ns : String) (p : Extension × List Extension) :
    (ExtensionManager.runCall ns p).filter
      (fun q => q.2.1 = p.1.name) = ExtensionManager.runCall ns p := by
  rw [ExtensionManager.runCall]
  cases p.2 with
  | nil => rfl
  | cons y ys => simp

/-- A run's resolver call is dropped when filtering by any other name. -/
theorem runCall_filter_other (ns : String) (p : Extension × List Extension)
    (k : String) (hk : p.1.name ≠ k) :
    (ExtensionManager.runCall ns p).filter (fun q => q.2.1 = k) = [] := by
  rw [ExtensionManager.runCall]
  cases p.2 with
  | nil => rfl
  | cons y ys => simp [hk]

/-- Behaviour of the `_extensions_by_name` loop over a run list with
pairwise-distinct keys: every run's choice lands in the dictionary under
the run's name with exactly the run's resolver call logged, and keys
outside the run list are untouched. -/
theorem byNameGo_spec
    (resolver : String → String → List Extension → Except Exc Extension)
    (ns : String) :
    ∀ (gs : List (Extension × List Extension))
      (d₀ : List (String × Extension))
      (log₀ : List ExtensionManager.ResolverCall)
      (D : List (String × Extension))
      (L : List ExtensionManager.ResolverCall),
      ExtensionManager.byNameGo resolver ns gs d₀ log₀ = .ok (D, L) →
      ((gs.map (fun p => p.1.name)).Nodup →
        ∀ p ∈ gs, ∃ c, ExtensionManager.chooseRun resolver ns p = .ok c ∧
          ExtensionManager.dictGet D p.1.name = some c ∧
          L.filter (fun q => q.2.1 = p.1.name) =
            log₀.filter (fun q => q.2.1 = p.1.name) ++
              ExtensionManager.runCall ns p) ∧
      (∀ k, (∀ p ∈ gs, p.1.name ≠ k) →
        ExtensionManager.dictGet D k = ExtensionManager.dictGet d₀ k ∧
        L.filter (fun q => q.2.1 = k) =
          log₀.filter (fun q => q.2.1 = k))
  | [], d₀, log₀, D, L, h => by
    rw [ExtensionManager.byNameGo] at h
    injection h with h₂
    rw [Prod.mk.injEq] at h₂
    obtain ⟨hD, hL⟩ := h₂
    subst hD
    subst hL
    exact ⟨fun _ p hp => absurd hp (List.not_mem_nil p),
      fun k _ => ⟨rfl, rfl⟩⟩
  | p :: gs', d₀, log₀, D, L, h => by
    rw [ExtensionManager.byNameGo] at h
    cases hc : ExtensionManager.chooseRun resolver ns p with
    | error err => simp only [hc] at h; cases h
    | ok c =>
      simp only [hc] at h
      have ih := byNameGo_spec resolver ns gs'
        (ExtensionManager.dictInsert d₀ p.1.name c)
        (log₀ ++ ExtensionManager.runCall ns p) D L h
      constructor
      · intro hnodup q hq
        rw [List.map_cons] at hnodup
        rcases List.mem_cons.mp hq with rfl | hq'
        · refine ⟨c, hc, ?_, ?_⟩
          · have hnot : ∀ r ∈ gs', r.1.name ≠ q.1.name := by
              intro r hr hcne
              exact (List.nodup_cons.mp hnodup).1
                (List.mem_map.mpr ⟨r, hr, hcne⟩)
            have h₂ := (ih.2 q.1.name hnot).1
            rw [h₂, dictGet_insert_self]
          · have hnot : ∀ r ∈ gs', r.1.name ≠ q.1.name := by
              intro r hr hcne
              exact (List.nodup_cons.mp hnodup).1
                (List.mem_map.mpr ⟨r, hr, hcne⟩)
            have h₂ := (ih.2 q.1.name hnot).2
            rw [h₂, List.filter_append, runCall_filter_self]
        · obtain ⟨c', hc', hd', hl'⟩ :=
            ih.1 (List.nodup_cons.mp hnodup).2 q hq'
          refine ⟨c', hc', hd', ?_⟩
          rw [hl', List.filter_append]
          have hne : p.1.name ≠ q.1.name := by
            intro hcon
            exact (List.nodup_cons.mp hnodup).1
              (List.mem_map.mpr ⟨q, hq', hcon.symm⟩)
          rw [runCall_filter_other ns p q.1.name hne, List.append_nil]
      · intro k hk
        have h₂ := ih.2 k (fun r hr => hk r (List.mem_cons_of_mem _ hr))
        refine ⟨?_, ?_⟩
        · rw [h₂.1, dictGet_insert_other d₀ p.1.name c k
            (fun hcon => hk p (List.mem_cons_self _ _) hcon.symm)]
        · rw [h₂.2, List.filter_append,
            runCall_filter_other ns p k (hk p (List.mem_cons_self _ _)),
            List.append_nil]

/-- Counterexample to C1 as stated: with same-named extensions *not
adjacent* in the collection (`[a₁, b, a₂]`), building the index invokes
the conflict resolver zero times (the log is empty) and maps `"a"` to
`a₂`, the sole member of the last `"a"` run — not to the resolver's pick
(a pick-first resolver would return `a₁`).  `itertools.groupby` only
groups adjacent elements. -/
theorem c1_counterexample :
    ExtensionManager.extensionsByName
      (fun _ _ g => match g with
        | x :: _ => .ok x
        | [] => .error (.other 0)) "ns"
      [⟨"a", ⟨"a", "m1:A", "ns"⟩, .obj 1, .none⟩,
       ⟨"b", ⟨"b", "m:B", "ns"⟩, .obj 2, .none⟩,
       ⟨"a", ⟨"a", "m2:A", "ns"⟩, .obj 3, .none⟩] =
      .ok ([("a", ⟨"a", ⟨"a", "m2:A", "ns"⟩, .obj 3, .none⟩),
            ("b", ⟨"b", ⟨"b", "m:B", "ns"⟩, .obj 2, .none⟩)], []) ∧
    (⟨"a", ⟨"a", "m2:A", "ns"⟩, PyVal.obj 3, PyVal.none⟩ : Extension) ≠
      ⟨"a", ⟨"a", "m1:A", "ns"⟩, .obj 1, .none⟩ :=
  ⟨rfl, by decide⟩

/-- C1 amended: *provided same-named Extensions are adjacent in the
collection* (equivalently, no two `groupby` runs share a name), building
the name→Extension index invokes the conflict resolver exactly once for
each name carried by N > 1 Extensions, with the namespace, the name, and
all N sharing Extensions in collection order, and the index maps that
name to the Extension the resolver returns; a name carried by exactly one
Extension maps to that Extension without invoking the resolver.  For
non-adjacent same-named Extensions the resolver is instead invoked per
adjacent run, later runs overwriting earlier ones in the index. -/
theorem c1_conflict_resolution
    (resolver : String → String → List Extension → Except Exc Extension)
    (ns : String) (exts : List Extension)
    (D : List (String × Extension))
    (L : List ExtensionManager.ResolverCall)
    (hg : ((ExtensionManager.groupByRuns exts).map
      (fun p => p.1.name)).Nodup)
    (hok : ExtensionManager.extensionsByName resolver ns exts =
      .ok (D, L)) :
    (∀ n, 1 < (exts.filter (fun e => e.name = n)).length →
      L.filter (fun q => q.2.1 = n) =
        [(ns, n, exts.filter (fun e => e.name = n))] ∧
      ∀ e, resolver ns n (exts.filter (fun e => e.name = n)) = .ok e →
        ExtensionManager.dictGet D n = some e) ∧
    (∀ n e₀, exts.filter (fun e => e.name = n) = [e₀] →
      ExtensionManager.dictGet D n = some e₀ ∧
      L.filter (fun q => q.2.1 = n) = []) := by
  rw [ExtensionManager.extensionsByName] at hok
  have spec := byNameGo_spec resolver ns
    (ExtensionManager.groupByRuns exts) [] [] D L hok
  constructor
  · intro n hlen
    have hfil := groupByRuns_filter exts hg n
    cases hf : (ExtensionManager.groupByRuns exts).find?
        (fun p => p.1.name = n) with
    | none =>
      simp only [hf] at hfil
      rw [hfil] at hlen
      simp at hlen
    | some p =>
      simp only [hf] at hfil
      have hpmem := List.mem_of_find?_eq_some hf
      have hpname : p.1.name = n := by
        have h' := List.find?_some hf
        simpa using h'
      have hp2 : p.2 ≠ [] := by
        intro hcon
        rw [hfil, hcon] at hlen
        simp at hlen
      obtain ⟨c, hchoose, hdget, hlog⟩ := spec.1 hg p hpmem
      constructor
      · rw [hpname] at hlog
        rw [hlog, List.filter_nil, List.nil_append,
          ExtensionManager.runCall]
        cases hq2 : p.2 with
        | nil => exact absurd hq2 hp2
        | cons y ys =>
          show [(ns, p.1.name, p.1 :: y :: ys)] =
            [(ns, n, exts.filter (fun e => e.name = n))]
          rw [hpname, ← hq2, ← hfil]
      · intro e hres
        rw [ExtensionManager.chooseRun] at hchoose
        cases hq2 : p.2 with
        | nil => exact absurd hq2 hp2
        | cons y ys =>
          simp only [hq2] at hchoose
          rw [hfil] at hres
          rw [hq2] at hres
          rw [hpname] at hchoose
          rw [hres] at hchoose
          injection hchoose with hce
          rw [hpname] at hdget
          rw [hdget, hce]
  · intro n e₀ hfil₀
    have hfil := groupByRuns_filter exts hg n
    cases hf : (ExtensionManager.groupByRuns exts).find?
        (fun p => p.1.name = n) with
    | none =>
      simp only [hf] at hfil
      rw [hfil₀] at hfil
      cases hfil
    | some p =>
      simp only [hf] at hfil
      have hpmem := List.mem_of_find?_eq_some hf
      have hpname : p.1.name = n := by
        have h' := List.find?_some hf
        simpa using h'
      rw [hfil₀] at hfil
      have hp1 : p.1 = e₀ := by
        injection hfil with h1 h2
        exact h1.symm
      have hp2 : p.2 = [] := by
        injection hfil with h1 h2
        exact h2.symm
      obtain ⟨c, hchoose, hdget, hlog⟩ := spec.1 hg p hpmem
      rw [ExtensionManager.chooseRun] at hchoose
      simp only [hp2] at hchoose
      injection hchoose with hce
      constructor
      · rw [hpname] at hdget
        rw [hdget, ← hce, hp1]
      · rw [hpname] at hlog
        rw [hlog, ExtensionManager.runCall]
        simp only [hp2]
        rfl

/-- Witness for the amended C1: `[a₁, a₂, b]` (duplicates adjacent) with a
pick-first resolver — the index maps `"a"` to the resolver's pick `a₁`. -/
theorem c1_witness :
    ExtensionManager.dictGet
      [("a", ⟨"a", ⟨"a", "m1:A", "ns"⟩, .obj 1, .none⟩),
       ("b", ⟨"b", ⟨"b", "m:B", "ns"⟩, .obj 2, .none⟩)] "a" =
      some ⟨"a", ⟨"a", "m1:A", "ns"⟩, .obj 1, .none⟩ :=
  ((c1_conflict_resolution
    (fun _ _ g => match g with
      | x :: _ => .ok x
      | [] => .error (.other 0)) "ns"
    [⟨"a", ⟨"a", "m1:A", "ns"⟩, .obj 1, .none⟩,
     ⟨"a", ⟨"a", "m2:A", "ns"⟩, .obj 3, .none⟩,
     ⟨"b", ⟨"b", "m:B", "ns"⟩, .obj 2, .none⟩]
    [("a", ⟨"a", ⟨"a", "m1:A", "ns"⟩, .obj 1, .none⟩),
     ("b", ⟨"b", ⟨"b", "m:B", "ns"⟩, .obj 2, .none⟩)]
    [("ns", "a",
      [⟨"a", ⟨"a", "m1:A", "ns"⟩, .obj 1, .none⟩,
       ⟨"a", ⟨"a", "m2:A", "ns"⟩, .obj 3, .none⟩])]
    (by decide) (by rfl)).1 "a" (by decide)).2
    ⟨"a", ⟨"a", "m1:A", "ns"⟩, .obj 1, .none⟩ (by rfl)

end Stevedore
